import Mathlib

/-!
# Verification of the segmented hypernetwork-LoRA generation engine

Shallow embedding of the core of `llama/llama_adapter.py`
(`LLaMA_adapter.forward`, `LLaMA_adapter.forward_inference`,
`LLaMA_adapter.generate`) together with proofs about the embedded
definitions.  The embedding covers:

* the prompt-prefill segmentation performed by `generate`
  (`torch.tensor_split(tokens[:, 0:cur_pos], list(range(segment_size, cur_pos,
  segment_size)))`);
* the hypernetwork-invocation discipline of `forward_inference` and of the
  training `forward` under the `serial` and `parallel` dynamic-parameter
  policies, modelled as explicit event traces;
* the masked mean pooling (`torch.sum(h * prompt_mask.unsqueeze(-1), dim=1) /
  denom`) over an explicit IEEE-style value type (finite rationals plus
  `nan` / infinities), since torch float division never raises;
* the prompt-mask construction of `generate` on both the segmented and the
  non-segmented prefill branch, including the span bounds `assert`;
* the token-grid decoding driver of `generate`: grid allocation, prompt fill,
  the sampling loop with prompt masking and the `bsz == 1` early stop, and
  the final slicing/`eos` truncation.
-/

instance {ε α : Type} [DecidableEq ε] [DecidableEq α] : DecidableEq (Except ε α) :=
  fun a b =>
    match a, b with
    | .ok x, .ok y =>
      if h : x = y then .isTrue (by rw [h]) else
        .isFalse (fun hc => by cases hc; exact h rfl)
    | .error x, .error y =>
      if h : x = y then .isTrue (by rw [h]) else
        .isFalse (fun hc => by cases hc; exact h rfl)
    | .ok _, .error _ => .isFalse (fun hc => Except.noConfusion hc)
    | .error _, .ok _ => .isFalse (fun hc => Except.noConfusion hc)

/-! ## Segmentation (`generate`, segmented prefill branch)

`generate` splits the prefill range with
`torch.tensor_split(tokens[:, prev_pos:cur_pos],
list(range(segment_size, tokens[:, prev_pos:cur_pos].shape[1], segment_size)), dim=1)`.
`rangeStep` is Python's `range(start, stop, step)` (for `step = 0` Python
raises `ValueError`; we return `[]`, and every theorem about segmentation
assumes `1 ≤ S`).  `chunkSizes` turns the split points of
`torch.tensor_split` into the list of chunk widths. -/

def rangeStep (start stop step : Nat) : List Nat :=
  if h : 0 < step ∧ start < stop then start :: rangeStep (start + step) stop step
  else []
termination_by stop - start
decreasing_by omega

def chunkSizes (points : List Nat) (L : Nat) : List Nat :=
  List.zipWith (fun a b => b - a) (0 :: points) (points ++ [L])

/-- Widths of the chunks produced by
`torch.tensor_split(x, list(range(S, L, S)), dim=1)` on a length-`L` axis. -/
def tensorSplitSizes (S L : Nat) : List Nat :=
  chunkSizes (rangeStep S L S) L

/-- The branch condition `prev_pos == 0 and cur_pos > segment_size` that selects
the segmented prefill path in `generate`. -/
def needsSegmentation (prevPos curPos segSize : Nat) : Bool :=
  prevPos == 0 && segSize < curPos

/-- Recursive characterization of `tensorSplitSizes`, used for induction. -/
def segChunksRec (S L : Nat) : List Nat :=
  if h : 0 < S ∧ S < L then S :: segChunksRec S (L - S)
  else [L]
termination_by L
decreasing_by omega

lemma rangeStep_stop (start stop step : Nat) (h : ¬ (0 < step ∧ start < stop)) :
    rangeStep start stop step = [] := by
  rw [rangeStep]
  simp [h]

lemma rangeStep_go (start stop step : Nat) (h : 0 < step ∧ start < stop) :
    rangeStep start stop step = start :: rangeStep (start + step) stop step := by
  rw [rangeStep]
  simp [h]

lemma rangeStep_shift (n : Nat) : ∀ a b c k, b - a ≤ n →
    rangeStep (a + k) (b + k) c = (rangeStep a b c).map (· + k) := by
  induction n with
  | zero =>
    intro a b c k hn
    have hb : ¬ (0 < c ∧ a < b) := by omega
    have hbk : ¬ (0 < c ∧ a + k < b + k) := by omega
    rw [rangeStep_stop _ _ _ hb, rangeStep_stop _ _ _ hbk]
    simp
  | succ n ih =>
    intro a b c k hn
    by_cases h : 0 < c ∧ a < b
    · have hk : 0 < c ∧ a + k < b + k := by omega
      rw [rangeStep_go _ _ _ h, rangeStep_go _ _ _ hk]
      have : rangeStep (a + c + k) (b + k) c = (rangeStep (a + c) b c).map (· + k) := by
        apply ih
        omega
      simp only [List.map_cons]
      rw [show a + k + c = a + c + k by omega, this]
    · have hk : ¬ (0 < c ∧ a + k < b + k) := by omega
      rw [rangeStep_stop _ _ _ h, rangeStep_stop _ _ _ hk]
      simp

lemma segChunksRec_base (S L : Nat) (h : ¬ (0 < S ∧ S < L)) : segChunksRec S L = [L] := by
  rw [segChunksRec]
  simp [h]

lemma segChunksRec_go (S L : Nat) (h : 0 < S ∧ S < L) :
    segChunksRec S L = S :: segChunksRec S (L - S) := by
  rw [segChunksRec]
  simp [h]

lemma tensorSplitSizes_eq_rec (S L : Nat) (hS : 1 ≤ S) :
    tensorSplitSizes S L = segChunksRec S L := by
  induction L using Nat.strong_induction_on with
  | _ L ih =>
    by_cases h : S < L
    · have hcond : 0 < S ∧ S < L := ⟨hS, h⟩
      rw [segChunksRec_go S L hcond]
      have hrange : rangeStep S L S = S :: rangeStep (S + S) L S := rangeStep_go S L S hcond
      have hshift : rangeStep (S + S) L S = (rangeStep S (L - S) S).map (· + S) := by
        have hL : (L - S) + S = L := by omega
        calc rangeStep (S + S) L S = rangeStep (S + S) ((L - S) + S) S := by rw [hL]
          _ = (rangeStep S (L - S) S).map (· + S) :=
            rangeStep_shift (L - S) S (L - S) S S (by omega)
      rw [tensorSplitSizes, hrange, hshift]
      have hchunk : chunkSizes (S :: (rangeStep S (L - S) S).map (· + S)) L
          = S :: chunkSizes (rangeStep S (L - S) S) (L - S) := by
        unfold chunkSizes
        have h1 : (S :: (rangeStep S (L - S) S).map (· + S))
            = (0 :: rangeStep S (L - S) S).map (· + S) := by simp
        have h2 : (rangeStep S (L - S) S).map (· + S) ++ [L]
            = ((rangeStep S (L - S) S) ++ [L - S]).map (· + S) := by
          rw [List.map_append]
          simp
          omega
        simp only [List.cons_append, List.zipWith_cons_cons]
        rw [h1, h2, List.zipWith_map]
        simp [Nat.add_sub_add_right]
      rw [hchunk]
      congr 1
      exact ih (L - S) (by omega)
    · rw [segChunksRec_base S L (by omega)]
      rw [tensorSplitSizes, rangeStep_stop S L S (by omega)]
      simp [chunkSizes]

lemma segChunksRec_sum (S L : Nat) (hS : 1 ≤ S) : (segChunksRec S L).sum = L := by
  induction L using Nat.strong_induction_on with
  | _ L ih =>
    by_cases h : S < L
    · rw [segChunksRec_go S L ⟨hS, h⟩]
      simp only [List.sum_cons]
      rw [ih (L - S) (by omega)]
      omega
    · rw [segChunksRec_base S L (by omega)]
      simp

lemma segChunksRec_le (S L : Nat) (hS : 1 ≤ S) (hL : L ≤ S) :
    ∀ c ∈ segChunksRec S L, c ≤ S := by
  rw [segChunksRec_base S L (by omega)]
  simp
  omega

lemma segChunksRec_mem_le (S L : Nat) (hS : 1 ≤ S) :
    ∀ c ∈ segChunksRec S L, c ≤ S := by
  induction L using Nat.strong_induction_on with
  | _ L ih =>
    by_cases h : S < L
    · rw [segChunksRec_go S L ⟨hS, h⟩]
      intro c hc
      rcases List.mem_cons.mp hc with hc | hc
      · omega
      · exact ih (L - S) (by omega) c hc
    · exact segChunksRec_le S L hS (by omega)

lemma segChunksRec_ne_nil (S L : Nat) : segChunksRec S L ≠ [] := by
  by_cases h : 0 < S ∧ S < L
  · rw [segChunksRec_go S L h]
    simp
  · rw [segChunksRec_base S L h]
    simp

lemma segChunksRec_dropLast (S L : Nat) (hS : 1 ≤ S) :
    ∀ c ∈ (segChunksRec S L).dropLast, c = S := by
  induction L using Nat.strong_induction_on with
  | _ L ih =>
    by_cases h : S < L
    · rw [segChunksRec_go S L ⟨hS, h⟩]
      intro c hc
      rcases hrest : segChunksRec S (L - S) with _ | ⟨a, rest⟩
      · exact absurd hrest (segChunksRec_ne_nil S (L - S))
      · rw [hrest] at hc
        rw [List.dropLast_cons₂] at hc
        rcases List.mem_cons.mp hc with hc | hc
        · omega
        · have := ih (L - S) (by omega) c
          rw [hrest] at this
          exact this hc
    · rw [segChunksRec_base S L (by omega)]
      simp

lemma segChunksRec_pos (S : Nat) (hS : 1 ≤ S) :
    ∀ L, 1 ≤ L → ∀ c ∈ segChunksRec S L, 1 ≤ c := by
  intro L
  induction L using Nat.strong_induction_on with
  | _ L ihL =>
    intro hL
    by_cases h : S < L
    · rw [segChunksRec_go S L ⟨hS, h⟩]
      intro c hc
      rcases List.mem_cons.mp hc with hc | hc
      · omega
      · exact ihL (L - S) (by omega) (by omega) c hc
    · rw [segChunksRec_base S L (by omega)]
      simp
      omega

lemma tensorSplitSizes_succ (S : Nat) (hS : 1 ≤ S) :
    tensorSplitSizes S (S + 1) = [S, 1] := by
  rw [tensorSplitSizes_eq_rec S (S + 1) hS, segChunksRec_go S (S + 1) ⟨hS, by omega⟩]
  rw [show S + 1 - S = 1 by omega, segChunksRec_base S 1 (by omega)]

/-- C1: for every prompt prefill range `[0, L)` and segment bound `S ≥ 1`, the
split `torch.tensor_split(tokens[:, 0:L], list(range(S, L, S)))` used by the
segmented branch of `generate` yields chunks that sum to `L`, are each at most
`S` wide, with every chunk except possibly the last exactly `S` wide; the
branch condition `prev_pos == 0 and cur_pos > segment_size` is strict, so a
prompt of exactly `S` tokens takes the non-segmented branch while a prompt of
`S + 1` tokens takes the segmented branch, splitting into `[S, 1]`. -/
theorem tensorSplit_spec (S L : Nat) (hS : 1 ≤ S) :
    (tensorSplitSizes S L).sum = L ∧
    (∀ c ∈ tensorSplitSizes S L, c ≤ S) ∧
    (∀ c ∈ (tensorSplitSizes S L).dropLast, c = S) ∧
    needsSegmentation 0 S S = false ∧
    needsSegmentation 0 (S + 1) S = true ∧
    tensorSplitSizes S (S + 1) = [S, 1] := by
  rw [tensorSplitSizes_eq_rec S L hS]
  refine ⟨segChunksRec_sum S L hS, segChunksRec_mem_le S L hS,
    segChunksRec_dropLast S L hS, ?_, ?_, tensorSplitSizes_succ S hS⟩
  · simp [needsSegmentation]
  · simp [needsSegmentation]

theorem tensorSplit_spec_witness :
    (1 ≤ 2) ∧
    ((tensorSplitSizes 2 5).sum = 5 ∧
     (∀ c ∈ tensorSplitSizes 2 5, c ≤ 2) ∧
     (∀ c ∈ (tensorSplitSizes 2 5).dropLast, c = 2) ∧
     needsSegmentation 0 2 2 = false ∧
     needsSegmentation 0 (2 + 1) 2 = true ∧
     tensorSplitSizes 2 (2 + 1) = [2, 1]) :=
  ⟨by decide, tensorSplit_spec 2 5 (by decide)⟩

/-! ## Hypernetwork invocation traces (`forward_inference` / `forward`)

Events abstract the hypernetwork-relevant actions of one model forward call:
`hnCallAll` is a call `self.lora_hyper_net(pooling_states)` producing
parameters for all hyper-adapted layers at once (`parallel` policy), and
`hnCallLayer i` is a call `self.lora_hyper_net(pooling_states, hyper_index=i)`
(`serial` policy).  `PoolSrc.fresh` means the argument is pooled from the
current hidden states; `PoolSrc.cached` means the argument is the stored
`self.pooling_states`.  `applyParams i` is `layer.apply_lora_params(...)` on
hyper-adapted layer `i`.

`inferenceEvents` embeds the control flow of `forward_inference` (lines
189-224): in the `parallel` branch the hypernetwork runs only under
`if start_pos == 0`; there is no `else` arm, so a call with `start_pos > 0`
generates no events.  `trainForwardEvents` embeds the training `forward`
(lines 114-156), whose `parallel` branch has an `else` arm (commented
"only for infini train") that re-invokes the hypernetwork on the cached
`self.pooling_states` at every `start_pos > 0` call.  Both assume the
hyper-adapted block is active (`self.hyper_lora_start` truthy) with `n`
hyper-adapted layers. -/

inductive PoolSrc where
  | fresh
  | cached
deriving DecidableEq

inductive Ev where
  | hnCallAll (src : PoolSrc)
  | hnCallLayer (i : Nat) (src : PoolSrc)
  | applyParams (i : Nat)
deriving DecidableEq

def inferenceEvents : Bool → Nat → Nat → List Ev
  | true, startPos, n =>
    (List.range n).flatMap (fun i =>
      if startPos = 0 then [Ev.hnCallLayer i PoolSrc.fresh, Ev.applyParams i] else [])
  | false, startPos, n =>
    if startPos = 0 then
      Ev.hnCallAll PoolSrc.fresh :: (List.range n).map Ev.applyParams
    else []

def trainForwardEvents : Bool → Nat → Nat → List Ev
  | true, startPos, n =>
    (List.range n).flatMap (fun i =>
      if startPos = 0 then [Ev.hnCallLayer i PoolSrc.fresh, Ev.applyParams i] else [])
  | false, startPos, n =>
    if startPos = 0 then
      Ev.hnCallAll PoolSrc.fresh :: (List.range n).map Ev.applyParams
    else
      Ev.hnCallAll PoolSrc.cached :: (List.range n).map Ev.applyParams

def isHNCall : Ev → Bool
  | Ev.hnCallAll _ => true
  | Ev.hnCallLayer _ _ => true
  | Ev.applyParams _ => false

/-- The hypernetwork invocations contained in a trace. -/
def hnCalls (evs : List Ev) : List Ev := evs.filter isHNCall

/-! ## The sequence of `forward_inference` calls made by one `generate` call

The first loop iteration has `prev_pos == 0` and `cur_pos == min_prompt_size`;
if `cur_pos > segment_size` it calls `forward_inference` once per chunk with
`local_start_pos` accumulating the chunk widths, otherwise once with
`start_pos = 0`.  Every later iteration calls `forward_inference` on the
single position `[cur_pos - 1, cur_pos)` with `start_pos = cur_pos - 1`.
`generateCalls S minP steps` lists the `(start_pos, seqlen)` pairs produced
when the loop executes its first (prefill) iteration followed by `steps`
decode iterations (the loop body runs at least once whenever
`min_prompt_size < total_len`; early stop only shortens `steps`). -/

def callsOfChunks : Nat → List Nat → List (Nat × Nat)
  | _, [] => []
  | s, c :: cs => (s, c) :: callsOfChunks (s + c) cs

def prefillCalls (S L : Nat) : List (Nat × Nat) :=
  if needsSegmentation 0 L S then callsOfChunks 0 (tensorSplitSizes S L)
  else [(0, L)]

def generateCalls (S minP steps : Nat) : List (Nat × Nat) :=
  prefillCalls S minP ++ (List.range' minP steps).map (fun p => (p, 1))

/-- All hypernetwork-relevant events of one `generate` call. -/
def generationEvents (serial : Bool) (n S minP steps : Nat) : List Ev :=
  (generateCalls S minP steps).flatMap (fun c => inferenceEvents serial c.1 n)

lemma callsOfChunks_fst_le : ∀ (cs : List Nat) (s : Nat), ∀ x ∈ callsOfChunks s cs, s ≤ x.1 := by
  intro cs
  induction cs with
  | nil => intro s x hx; cases hx
  | cons c cs ih =>
    intro s x hx
    rcases List.mem_cons.mp hx with hx | hx
    · rw [hx]
    · have := ih (s + c) x hx
      omega

lemma generateCalls_shape (S minP steps : Nat) (hP : 1 ≤ minP) (hS : 1 ≤ S) :
    ∃ c0 rest, generateCalls S minP steps = (0, c0) :: rest ∧ ∀ x ∈ rest, 0 < x.1 := by
  have hdec : ∀ x ∈ (List.range' minP steps).map (fun p => (p, (1 : Nat))), 0 < x.1 := by
    intro x hx
    rcases List.mem_map.mp hx with ⟨p, hp, hpx⟩
    have := (List.mem_range'_1.mp hp).1
    rw [← hpx]
    simpa using by omega
  by_cases h : S < minP
  · have hseg : needsSegmentation 0 minP S = true := by simp [needsSegmentation, h]
    have hchunks : tensorSplitSizes S minP = S :: segChunksRec S (minP - S) := by
      rw [tensorSplitSizes_eq_rec S minP hS, segChunksRec_go S minP ⟨hS, h⟩]
    refine ⟨S, callsOfChunks S (segChunksRec S (minP - S))
      ++ (List.range' minP steps).map (fun p => (p, 1)), ?_, ?_⟩
    · rw [generateCalls, prefillCalls, hseg, hchunks]
      simp [callsOfChunks]
    · intro x hx
      rcases List.mem_append.mp hx with hx | hx
      · have := callsOfChunks_fst_le _ S x hx
        omega
      · exact hdec x hx
  · have hseg : needsSegmentation 0 minP S = false := by simp [needsSegmentation]; omega
    refine ⟨minP, (List.range' minP steps).map (fun p => (p, 1)), ?_, hdec⟩
    rw [generateCalls, prefillCalls, hseg]
    simp

lemma inferenceEvents_serial_pos (sp n : Nat) (h : 0 < sp) :
    inferenceEvents true sp n = [] := by
  rw [inferenceEvents, List.flatMap_eq_nil_iff]
  intro i _
  rw [if_neg (by omega)]

lemma inferenceEvents_parallel_pos (sp n : Nat) (h : 0 < sp) :
    inferenceEvents false sp n = [] := by
  rw [inferenceEvents, if_neg (by omega)]

lemma restEvents_nil (serial : Bool) (n : Nat) (rest : List (Nat × Nat))
    (h : ∀ x ∈ rest, 0 < x.1) :
    rest.flatMap (fun c => inferenceEvents serial c.1 n) = [] := by
  rw [List.flatMap_eq_nil_iff]
  intro x hx
  cases serial
  · exact inferenceEvents_parallel_pos x.1 n (h x hx)
  · exact inferenceEvents_serial_pos x.1 n (h x hx)

lemma flatMap_single_map {α β : Type} (l : List α) (g : α → β) :
    (l.flatMap fun a => [g a]) = l.map g := by
  induction l with
  | nil => simp
  | cons a l ih => simp [List.flatMap_cons, ih]

/-- C3: under the `serial` policy with `n` hyper-adapted layers, one
`generate` call (first prefill iteration plus any number of decode
iterations) invokes the hypernetwork exactly `n` times, once per layer with
that layer's index, in order; exactly one `forward_inference` call of the
whole generation has `start_pos == 0` (the first prefill chunk), and every
call with `start_pos > 0` performs no hypernetwork invocation at all. -/
theorem serial_policy_hypernet_calls (n S minP steps : Nat)
    (hP : 1 ≤ minP) (hS : 1 ≤ S) :
    hnCalls (generationEvents true n S minP steps)
      = (List.range n).map (fun i => Ev.hnCallLayer i PoolSrc.fresh) ∧
    ((generateCalls S minP steps).filter (fun c => c.1 == 0)).length = 1 ∧
    (∀ sp, 0 < sp → inferenceEvents true sp n = []) := by
  obtain ⟨c0, rest, hshape, hrest⟩ := generateCalls_shape S minP steps hP hS
  refine ⟨?_, ?_, fun sp hsp => inferenceEvents_serial_pos sp n hsp⟩
  · have hinf : inferenceEvents true 0 n
        = (List.range n).flatMap (fun i => [Ev.hnCallLayer i PoolSrc.fresh, Ev.applyParams i]) := by
      rw [inferenceEvents]
      congr 1
    rw [generationEvents, hshape, List.flatMap_cons, restEvents_nil true n rest hrest,
      List.append_nil]
    show hnCalls (inferenceEvents true 0 n) = _
    rw [hinf, hnCalls, List.filter_flatMap]
    calc (List.range n).flatMap (fun i => List.filter isHNCall
            [Ev.hnCallLayer i PoolSrc.fresh, Ev.applyParams i])
        = (List.range n).flatMap (fun i => [Ev.hnCallLayer i PoolSrc.fresh]) := by
          congr 1
      _ = (List.range n).map (fun i => Ev.hnCallLayer i PoolSrc.fresh) :=
          flatMap_single_map _ _
  · rw [hshape, List.filter_cons]
    have h0 : (((0 : Nat), c0).1 == 0) = true := by simp
    rw [if_pos h0]
    have : rest.filter (fun c => c.1 == 0) = [] := by
      rw [List.filter_eq_nil_iff]
      intro x hx
      have := hrest x hx
      simp
      omega
    rw [this]
    rfl

theorem serial_policy_hypernet_calls_witness :
    (1 ≤ 3) ∧ (1 ≤ 2) ∧
    (hnCalls (generationEvents true 2 2 3 2)
        = (List.range 2).map (fun i => Ev.hnCallLayer i PoolSrc.fresh) ∧
      ((generateCalls 2 3 2).filter (fun c => c.1 == 0)).length = 1 ∧
      (∀ sp, 0 < sp → inferenceEvents true sp 2 = [])) :=
  ⟨by decide, by decide, serial_policy_hypernet_calls 2 2 3 2 (by decide) (by decide)⟩

/-- C2 counterexample: under the `parallel` policy (`serial_generate` false,
here with 2 hyper-adapted layers, segment bound 8, prompt length 3, 2 decode
steps) the very first decode step after prefill is the `forward_inference`
call with `start_pos = 3 > 0` — and its event trace is empty: the
hypernetwork is *not* invoked again and no parameters are re-applied.  The
only hypernetwork invocation of the whole generation happens at
`start_pos = 0`, on the freshly pooled vector. -/
theorem parallel_decode_no_hypernet_cex :
    generateCalls 8 3 2 = [(0, 3), (3, 1), (4, 1)] ∧
    inferenceEvents false 3 2 = [] ∧
    generationEvents false 2 8 3 2
      = [Ev.hnCallAll PoolSrc.fresh, Ev.applyParams 0, Ev.applyParams 1] := by
  refine ⟨?_, ?_, ?_⟩ <;> decide

/-- C2 (amended): in the inference path used by `generate`
(`forward_inference`), the `parallel` policy invokes the hypernetwork exactly
once per generation call — at the unique `start_pos == 0` call, on the
freshly pooled vector — and applies the resulting parameters to the `n`
hyper-adapted layers; every decode-step call (`start_pos > 0`) performs no
hypernetwork invocation and no parameter application, the parameters applied
during prefill simply persisting in the layers.  Regeneration from the
*cached* pooled vector at `start_pos > 0` exists only in the training
`forward` (the branch commented "only for infini train"). -/
theorem parallel_policy_events (n S minP steps : Nat)
    (hP : 1 ≤ minP) (hS : 1 ≤ S) :
    generationEvents false n S minP steps
      = Ev.hnCallAll PoolSrc.fresh :: (List.range n).map Ev.applyParams ∧
    (∀ sp, 0 < sp → inferenceEvents false sp n = []) ∧
    (∀ sp, 0 < sp → trainForwardEvents false sp n
      = Ev.hnCallAll PoolSrc.cached :: (List.range n).map Ev.applyParams) := by
  obtain ⟨c0, rest, hshape, hrest⟩ := generateCalls_shape S minP steps hP hS
  refine ⟨?_, fun sp hsp => inferenceEvents_parallel_pos sp n hsp,
    fun sp hsp => ?_⟩
  · rw [generationEvents, hshape, List.flatMap_cons, restEvents_nil false n rest hrest,
      List.append_nil]
    show inferenceEvents false 0 n = _
    rw [inferenceEvents, if_pos rfl]
  · rw [trainForwardEvents, if_neg (by omega)]

theorem parallel_policy_events_witness :
    (1 ≤ 3) ∧ (1 ≤ 8) ∧
    (generationEvents false 2 8 3 2
        = Ev.hnCallAll PoolSrc.fresh :: (List.range 2).map Ev.applyParams ∧
      (∀ sp, 0 < sp → inferenceEvents false sp 2 = []) ∧
      (∀ sp, 0 < sp → trainForwardEvents false sp 2
        = Ev.hnCallAll PoolSrc.cached :: (List.range 2).map Ev.applyParams)) :=
  ⟨by decide, by decide, parallel_policy_events 2 8 3 2 (by decide) (by decide)⟩

/-! ## Masked mean pooling (`forward_inference`, lines 194-198)

`denom = torch.sum(prompt_mask, -1).unsqueeze(-1)` and
`pooling_states = torch.sum(h * prompt_mask.unsqueeze(-1), dim=1) / denom`
are float tensor operations.  PyTorch float division never raises: a zero
denominator yields `nan` (for a zero numerator) or an infinity, following
IEEE-754.  `F` models one float value as an exact rational plus the
non-finite values, and `fdiv` is IEEE division of finite values.  The
`Except` result type records whether the step raises; its body shows it
never constructs an error. -/

inductive F where
  | fin (q : ℚ)
  | posInf
  | negInf
  | nan
deriving DecidableEq

inductive PoolError where
  | divisionByZero
deriving DecidableEq

def fdiv (num den : ℚ) : F :=
  if den = 0 then
    (if num = 0 then F.nan else if 0 < num then F.posInf else F.negInf)
  else F.fin (num / den)

/-- Feature `d` of `torch.sum(h * mask.unsqueeze(-1), dim=1)` for one
sequence: `Σ_p h[p][d] * mask[p]`. -/
def poolNum (h : List (List ℚ)) (mask : List ℚ) (d : Nat) : ℚ :=
  ((h.zip mask).map (fun pm => pm.1.getD d 0 * pm.2)).sum

/-- The pooling denominator `torch.sum(mask, -1)` for one sequence. -/
def poolDen (mask : List ℚ) : ℚ := mask.sum

def featureDim (h : List (List ℚ)) : Nat := (h.headD []).length

/-- One row (one sequence) of
`torch.sum(h * prompt_mask.unsqueeze(-1), dim=1) / denom`: a masked mean
pool over the positions of `h`.  The result is always `Except.ok`; torch
float division by a zero denominator silently produces `nan`/infinite
entries instead of raising. -/
def maskedMeanPoolRow (h : List (List ℚ)) (mask : List ℚ) :
    Except PoolError (List F) :=
  Except.ok ((List.range (featureDim h)).map (fun d => fdiv (poolNum h mask d) (poolDen mask)))

/-- C4 counterexample: a pooling mask row summing to zero (two positions,
mask `[0, 0]`, hidden states `[[1], [2]]`) does not make the masked
mean-pool step fail with a division-by-zero error; it silently returns the
`nan` pooled vector `[0/0]`, which then propagates into the hypernetwork. -/
theorem pool_zero_mask_cex :
    maskedMeanPoolRow [[(1 : ℚ)], [(2 : ℚ)]] [0, 0] = Except.ok [F.nan] ∧
    maskedMeanPoolRow [[(1 : ℚ)], [(2 : ℚ)]] [0, 0]
      ≠ Except.error PoolError.divisionByZero := by
  have h1 : maskedMeanPoolRow [[(1 : ℚ)], [(2 : ℚ)]] [0, 0] = Except.ok [F.nan] := by
    simp [maskedMeanPoolRow, featureDim, poolNum, poolDen, fdiv]
  exact ⟨h1, by rw [h1]; simp⟩

lemma sum01_nonneg (mask : List ℚ) (hm : ∀ m ∈ mask, m = 0 ∨ m = 1) :
    0 ≤ mask.sum := by
  induction mask with
  | nil => simp
  | cons m rest ih =>
    have h1 := hm m (List.mem_cons_self m rest)
    have h2 : 0 ≤ rest.sum := ih (fun x hx => hm x (List.mem_cons_of_mem m hx))
    rw [List.sum_cons]
    rcases h1 with h1 | h1 <;> rw [h1] <;> linarith

lemma sum01_zero (mask : List ℚ) (hm : ∀ m ∈ mask, m = 0 ∨ m = 1)
    (hz : mask.sum = 0) : ∀ m ∈ mask, m = 0 := by
  induction mask with
  | nil => simp
  | cons m rest ih =>
    have h1 := hm m (List.mem_cons_self m rest)
    have hrest : ∀ x ∈ rest, x = 0 ∨ x = 1 := fun x hx => hm x (List.mem_cons_of_mem m hx)
    have h2 : 0 ≤ rest.sum := sum01_nonneg rest hrest
    rw [List.sum_cons] at hz
    have hm0 : m = 0 := by rcases h1 with h1 | h1 <;> [skip; linarith]; exact h1
    have hs0 : rest.sum = 0 := by rw [hm0] at hz; linarith
    intro x hx
    rcases List.mem_cons.mp hx with hx | hx
    · rw [hx, hm0]
    · exact ih hrest hs0 x hx

lemma poolNum_zero (h : List (List ℚ)) (mask : List ℚ)
    (hm : ∀ m ∈ mask, m = 0) (d : Nat) : poolNum h mask d = 0 := by
  apply List.sum_eq_zero
  intro x hx
  rcases List.mem_map.mp hx with ⟨pm, hpm, hpx⟩
  have := hm pm.2 (List.of_mem_zip hpm).2
  rw [← hpx, this, mul_zero]

/-- C4 (amended): the masked mean-pool step never raises.  For any hidden
states and any 0/1 pooling mask row whose sum is zero, it returns
`Except.ok` with every pooled entry equal to `nan` (IEEE `0/0`), silently
corrupting the pooled vector instead of failing the batch. -/
theorem pool_zero_mask_nan (h : List (List ℚ)) (mask : List ℚ)
    (hm : ∀ m ∈ mask, m = 0 ∨ m = 1) (hz : poolDen mask = 0) :
    maskedMeanPoolRow h mask = Except.ok (List.replicate (featureDim h) F.nan) := by
  have hall : ∀ m ∈ mask, m = 0 := sum01_zero mask hm hz
  rw [maskedMeanPoolRow]
  congr 1
  have : ∀ d ∈ List.range (featureDim h),
      fdiv (poolNum h mask d) (poolDen mask) = F.nan := by
    intro d _
    rw [poolNum_zero h mask hall d, hz, fdiv, if_pos rfl, if_pos rfl]
  rw [List.map_congr_left this, List.map_const', List.length_range]

theorem pool_zero_mask_nan_witness :
    (∀ m ∈ ([0, 0] : List ℚ), m = 0 ∨ m = 1) ∧
    poolDen [0, 0] = 0 ∧
    maskedMeanPoolRow [[(1 : ℚ)], [(2 : ℚ)]] [0, 0]
      = Except.ok (List.replicate (featureDim [[(1 : ℚ)], [(2 : ℚ)]]) F.nan) :=
  ⟨by simp, by simp [poolDen],
    pool_zero_mask_nan [[(1 : ℚ)], [(2 : ℚ)]] [0, 0] (by simp) (by simp [poolDen])⟩

/-! ## Prompt-mask construction in `generate` (first loop iteration)

On the segmented branch (`cur_pos > segment_size`) the base mask is
`input_text_mask[:, :segment_size]`; on the non-segmented branch it is
`input_text_mask[:, prev_pos:cur_pos]` with `prev_pos = 0`.  The instruction
branch replaces it by zeros and writes `prompt_mask[j, span[0]:span[1]] = 1`
for each span; Python slice assignment clamps out-of-range indices.  Only
the segmented branch carries `assert h_span[1] <= segment_size`, modelled by
the `Except` in `applySpansChecked` (an `AssertionError` in Python).

The branch test is Python's `hyper_input_type in ('instruction')`:
`('instruction')` is a plain parenthesised string, not a tuple, so this is a
*substring* test, true exactly when `hyper_input_type` is a contiguous
substring of `"instruction"` (`instrBranch`). -/

def setRowRangeFrom (a b : Nat) : Nat → List ℚ → List ℚ
  | _, [] => []
  | i, x :: xs => (if a ≤ i ∧ i < b then 1 else x) :: setRowRangeFrom a b (i + 1) xs

/-- `row[a:b] = 1` with Python slice-assignment clamping. -/
def setRowRange (row : List ℚ) (a b : Nat) : List ℚ := setRowRangeFrom a b 0 row

/-- `mask[j, a:b] = 1`. -/
def setMaskRow (mask : List (List ℚ)) (j a b : Nat) : List (List ℚ) :=
  mask.set j (setRowRange (mask.getD j []) a b)

/-- `torch.zeros_like(mask)`. -/
def zerosLike (mask : List (List ℚ)) : List (List ℚ) :=
  mask.map (List.map (fun _ => 0))

inductive MaskError where
  | assertSpanOutOfRange
deriving DecidableEq

/-- The segmented-branch span loop: `assert h_span[1] <= segment_size`
before each `prompt_mask[j, h_span[0]:h_span[1]] = 1`. -/
def applySpansChecked (S : Nat) :
    List (List ℚ) → List (Nat × Nat) → Nat → Except MaskError (List (List ℚ))
  | mask, [], _ => Except.ok mask
  | mask, sp :: rest, j =>
    if sp.2 ≤ S then applySpansChecked S (setMaskRow mask j sp.1 sp.2) rest (j + 1)
    else Except.error MaskError.assertSpanOutOfRange

/-- The non-segmented-branch span loop: no assertion, spans silently clamped. -/
def applySpansUnchecked : List (List ℚ) → List (Nat × Nat) → Nat → List (List ℚ)
  | mask, [], _ => mask
  | mask, sp :: rest, j => applySpansUnchecked (setMaskRow mask j sp.1 sp.2) rest (j + 1)

/-- Python's `hyper_input_type in ('instruction')` — a substring test. -/
def instrBranch (t : String) : Bool :=
  ("instruction".toList.tails).any (fun suf => t.toList.isPrefixOf suf)

/-- The prompt mask handed to `forward_inference` by the first `generate`
loop iteration (`prev_pos = 0`, `cur_pos = curPos`), given the 0/1 float
prompt-token mask `itm` (full `total_len` width), the hypernetwork input
policy string, the caller spans and the segment bound. -/
def buildPromptMask (itm : List (List ℚ)) (t : String) (spans : List (Nat × Nat))
    (S curPos : Nat) : Except MaskError (List (List ℚ)) :=
  if needsSegmentation 0 curPos S then
    if instrBranch t then applySpansChecked S (zerosLike (itm.map (List.take S))) spans 0
    else Except.ok (itm.map (List.take S))
  else
    if instrBranch t then
      Except.ok (applySpansUnchecked (zerosLike (itm.map (List.take curPos))) spans 0)
    else Except.ok (itm.map (List.take curPos))

/-- `input_text_mask = tokens != pad_id`, as a 0/1 float grid. -/
def maskGrid (g : List (List Nat)) (padId : Nat) : List (List ℚ) :=
  g.map (List.map (fun x => if x = padId then 0 else 1))

/-- C5 counterexample: under the instruction policy, on the *non-segmented*
prefill branch (`cur_pos = 2 ≤ segment_size = 4`) a span `(0, 5)` whose end
`5` exceeds the segment bound does not raise: the call returns `Except.ok`
(with the span silently clamped to the mask width), so the bounds check does
not apply on every path into pooling. -/
theorem span_check_nonseg_cex :
    buildPromptMask [[1, 1]] "instruction" [(0, 5)] 4 2 = Except.ok [[1, 1]] ∧
    buildPromptMask [[1, 1]] "instruction" [(0, 5)] 4 2
      ≠ Except.error MaskError.assertSpanOutOfRange := by
  refine ⟨?_, ?_⟩ <;> decide

lemma applySpansChecked_error (S : Nat) :
    ∀ (spans : List (Nat × Nat)) (mask : List (List ℚ)) (j : Nat),
      (applySpansChecked S mask spans j = Except.error MaskError.assertSpanOutOfRange) ↔
        ∃ sp ∈ spans, S < sp.2 := by
  intro spans
  induction spans with
  | nil =>
    intro mask j
    simp [applySpansChecked]
  | cons sp rest ih =>
    intro mask j
    rw [applySpansChecked]
    by_cases h : sp.2 ≤ S
    · rw [if_pos h, ih]
      constructor
      · intro ⟨x, hx, hxS⟩
        exact ⟨x, List.mem_cons_of_mem sp hx, hxS⟩
      · intro ⟨x, hx, hxS⟩
        rcases List.mem_cons.mp hx with hx | hx
        · rw [hx] at hxS; omega
        · exact ⟨x, hx, hxS⟩
    · rw [if_neg h]
      simp only [true_iff]
      exact ⟨sp, List.mem_cons_self sp rest, by omega⟩

lemma applySpansChecked_ok (S : Nat) :
    ∀ (spans : List (Nat × Nat)) (mask : List (List ℚ)) (j : Nat),
      (∀ sp ∈ spans, sp.2 ≤ S) → (applySpansChecked S mask spans j).isOk = true := by
  intro spans
  induction spans with
  | nil => intro mask j _; rfl
  | cons sp rest ih =>
    intro mask j hb
    rw [applySpansChecked, if_pos (hb sp (List.mem_cons_self sp rest))]
    exact ih _ _ (fun x hx => hb x (List.mem_cons_of_mem sp hx))

/-- C5 (amended): under the instruction input policy the span bounds check
`end ≤ segment_size` exists only on the *segmented* prefill branch
(`cur_pos > segment_size`), where the call fails (an `AssertionError`) iff
some caller span end exceeds the bound; on the non-segmented prefill branch
no check is performed and the call always succeeds, spans being silently
clamped by slice assignment. -/
theorem span_bounds_check (itm : List (List ℚ)) (spans : List (Nat × Nat))
    (S curPos : Nat) (t : String) (hins : instrBranch t = true) :
    (S < curPos →
      ((buildPromptMask itm t spans S curPos
          = Except.error MaskError.assertSpanOutOfRange) ↔ ∃ sp ∈ spans, S < sp.2)) ∧
    (curPos ≤ S → (buildPromptMask itm t spans S curPos).isOk = true) := by
  constructor
  · intro h
    have hseg : needsSegmentation 0 curPos S = true := by
      simp [needsSegmentation]
      omega
    rw [buildPromptMask, if_pos hseg, if_pos hins]
    exact applySpansChecked_error S spans _ 0
  · intro h
    have hseg : needsSegmentation 0 curPos S = false := by
      simp [needsSegmentation]
      omega
    rw [buildPromptMask, if_neg (by simp [hseg]), if_pos hins]
    rfl

theorem span_bounds_check_witness :
    (instrBranch "instruction" = true) ∧
    ((4 < 6 →
      ((buildPromptMask [[1, 1, 1]] "instruction" [(0, 5)] 4 6
          = Except.error MaskError.assertSpanOutOfRange) ↔
        ∃ sp ∈ [((0 : Nat), (5 : Nat))], 4 < sp.2)) ∧
     (6 ≤ 4 → (buildPromptMask [[1, 1, 1]] "instruction" [(0, 5)] 4 6).isOk = true)) :=
  ⟨by decide, span_bounds_check [[1, 1, 1]] [(0, 5)] 4 6 "instruction" (by decide)⟩

/-- C6 counterexample: prompt tokens `[5, 9, 2]` (no padding, `pad_id = 0`),
segment bound `2`: the prefill is segmented (`cur_pos = 3 > 2`) and the mask
handed to pooling is `input_text_mask[:, :2] = [[1, 1]]`, not the full
prompt-token mask `[[1, 1, 1]]` — prompt position 2 is excluded.  The pooled
vector therefore differs from the masked mean over every original-prompt
token: with first-chunk hidden states `[[1], [3]]` the code pools to `2`,
while the mean over all three prompt positions of `[[1], [3], [8]]` is `4`. -/
theorem document_mask_truncated_cex :
    maskGrid [[5, 9, 2]] 0 = [[1, 1, 1]] ∧
    buildPromptMask (maskGrid [[5, 9, 2]] 0) "document" [] 2 3 = Except.ok [[1, 1]] ∧
    ([[(1 : ℚ), 1]] : List (List ℚ)) ≠ [[1, 1, 1]] ∧
    maskedMeanPoolRow [[(1 : ℚ)], [3]] [1, 1] = Except.ok [F.fin 2] ∧
    maskedMeanPoolRow [[(1 : ℚ)], [3], [8]] [1, 1, 1] = Except.ok [F.fin 4] ∧
    F.fin (2 : ℚ) ≠ F.fin 4 := by
  have hr : List.range 1 = [0] := rfl
  refine ⟨by decide, by decide, by decide, ?_, ?_, by decide⟩
  · norm_num [maskedMeanPoolRow, featureDim, poolNum, poolDen, fdiv, hr]
  · norm_num [maskedMeanPoolRow, featureDim, poolNum, poolDen, fdiv, hr]

/-- C6 (amended): under the document policy (and any other policy string
that is not a substring of `"instruction"`, since the branch test is
Python's `hyper_input_type in ('instruction')`), the mask used for pooling
is the prompt-token mask truncated to the first `segment_size` columns on
the segmented prefill branch, and to the first `cur_pos = min_prompt_size`
columns on the non-segmented branch — it equals the full mask `M` only when
every prompt token lies inside that window. -/
theorem document_mask_take (itm : List (List ℚ)) (spans : List (Nat × Nat))
    (S curPos : Nat) :
    buildPromptMask itm "document" spans S curPos
      = Except.ok (itm.map (List.take (if needsSegmentation 0 curPos S then S else curPos))) := by
  have hdoc : instrBranch "document" = false := by decide
  by_cases h : needsSegmentation 0 curPos S = true
  · rw [buildPromptMask, if_pos h, if_neg (by simp [hdoc]), if_pos h]
  · rw [buildPromptMask, if_neg h, if_neg (by simp [hdoc]), if_neg h]

/-! ## Decoding driver (`generate`, lines 249-321)

The token grid is `bsz` rows of width `total_len`.  `initGrid` is
`torch.full((bsz, total_len), pad_id)` followed by
`tokens[k, :len(t)] = torch.tensor(t)` for each prompt — which raises a
shape-mismatch `RuntimeError` when `len(t) > total_len` (the slice clamps to
width `total_len`), modelled by `Option`.  `decodeFrom` is the loop
`for cur_pos in range(start_pos, total_len)` (`fuel` iterations remaining),
with the batch of sampled tokens abstracted as `sampler curPos k` — the
claims hold for every sampler; it records the list of processed positions.
`finalize` is the decoded-slice extraction: `t[len(prompts[i]) :
len(prompts[i]) + max_gen_len]` then truncation at the first `eos`
(`t[: t.index(eos)]` inside `try/except`, i.e. the longest `eos`-free
prefix). -/

abbrev Grid := List (List Nat)

def getTok (g : Grid) (k pos : Nat) : Nat := (g.getD k []).getD pos 0

def writeColFrom (pos : Nat) (f : Nat → Nat) : Nat → Grid → Grid
  | _, [] => []
  | k, row :: rest => row.set pos (f k) :: writeColFrom pos f (k + 1) rest

/-- `tokens[:, pos] = v` where `v k` is the value for row `k`. -/
def writeCol (g : Grid) (pos : Nat) (f : Nat → Nat) : Grid := writeColFrom pos f 0 g

/-- `tokens[k, :len(t)] = torch.tensor(t)` into a `pad`-filled row of width
`tl`. -/
def fillRow (p : List Nat) (tl pad : Nat) : Option (List Nat) :=
  if p.length ≤ tl then some (p ++ List.replicate (tl - p.length) pad) else none

def initGrid : List (List Nat) → Nat → Nat → Option Grid
  | [], _, _ => some []
  | p :: rest, tl, pad =>
    match fillRow p tl pad, initGrid rest tl pad with
    | some row, some g => some (row :: g)
    | _, _ => none

/-- `input_text_mask = tokens != pad_id`, defined on the grid extent. -/
def inputTextMask (g : Grid) (pad : Nat) (k pos : Nat) : Bool :=
  decide (pos < (g.getD k []).length) && (getTok g k pos != pad)

/-- One loop-body write:
`next_token = torch.where(input_text_mask[:, cur_pos], tokens[:, cur_pos], next_token)`
then `tokens[:, cur_pos] = next_token`. -/
def decodeStep (mask : Nat → Nat → Bool) (sampler : Nat → Nat → Nat)
    (g : Grid) (curPos : Nat) : Grid :=
  writeCol g curPos (fun k => if mask k curPos then getTok g k curPos else sampler curPos k)

/-- The decode loop with `fuel` iterations left, starting at column `curPos`;
returns the final grid and the list of processed positions.  The early stop
is `if bsz == 1 and next_token[0] == self.tokenizer.eos_id: break`. -/
def decodeFrom (mask : Nat → Nat → Bool) (sampler : Nat → Nat → Nat)
    (bsz eosId : Nat) : Nat → Nat → Grid → Grid × List Nat
  | 0, _, g => (g, [])
  | fuel + 1, curPos, g =>
    if bsz = 1 ∧ (if mask 0 curPos then getTok g 0 curPos else sampler curPos 0) = eosId then
      (decodeStep mask sampler g curPos, [curPos])
    else
      ((decodeFrom mask sampler bsz eosId fuel (curPos + 1) (decodeStep mask sampler g curPos)).1,
        curPos ::
          (decodeFrom mask sampler bsz eosId fuel (curPos + 1) (decodeStep mask sampler g curPos)).2)

/-- `total_len = min(params.max_seq_len, max_gen_len + max_prompt_size)`. -/
def totalLen (maxSeqLen maxGen maxPrompt : Nat) : Nat :=
  min maxSeqLen (maxGen + maxPrompt)

/-- `max_prompt_size = max([len(t) for t in prompts])` (Python raises on an
empty batch; the fold returns 0 there). -/
def maxPromptSize (prompts : List (List Nat)) : Nat :=
  (prompts.map List.length).foldr max 0

/-- `t = t[len(prompts[i]) : len(prompts[i]) + max_gen_len]` then
`t = t[: t.index(eos_id)]` when an `eos` is present. -/
def finalizeRow (row p : List Nat) (maxGen eosId : Nat) : List Nat :=
  ((row.drop p.length).take maxGen).takeWhile (fun x => x != eosId)

def finalize (g : Grid) (prompts : List (List Nat)) (maxGen eosId : Nat) :
    List (List Nat) :=
  List.zipWith (fun row p => finalizeRow row p maxGen eosId) g prompts

lemma getD_set_self (l : List Nat) (p v : Nat) (h : p < l.length) :
    (l.set p v).getD p 0 = v := by
  rw [List.getD_eq_getElem?_getD, List.getElem?_set_self h]
  rfl

lemma getD_set_of_length_le (l : List Nat) (p v : Nat) (h : l.length ≤ p) :
    (l.set p v) = l :=
  List.set_eq_of_length_le h

lemma getD_set_ne (l : List Nat) (p q v : Nat) (h : q ≠ p) :
    (l.set p v).getD q 0 = l.getD q 0 := by
  rw [List.getD_eq_getElem?_getD, List.getD_eq_getElem?_getD,
    List.getElem?_set_ne (Ne.symm h)]

lemma writeColFrom_getD (pos : Nat) (f : Nat → Nat) :
    ∀ (g : Grid) (k j : Nat),
      (writeColFrom pos f k g).getD j [] = (g.getD j []).set pos (f (k + j)) := by
  intro g
  induction g with
  | nil => intro k j; rfl
  | cons row rest ih =>
    intro k j
    cases j with
    | zero => rfl
    | succ j =>
      show (writeColFrom pos f (k + 1) rest).getD j [] = (rest.getD j []).set pos (f (k + (j + 1)))
      rw [ih (k + 1) j]
      congr 2
      omega

lemma getTok_writeCol_ne (g : Grid) (pos : Nat) (f : Nat → Nat) (k q : Nat)
    (h : q ≠ pos) : getTok (writeCol g pos f) k q = getTok g k q := by
  rw [getTok, writeCol, writeColFrom_getD pos f g 0 k, getD_set_ne _ _ _ _ h]
  rfl

lemma getTok_writeCol_self (g : Grid) (pos : Nat) (f : Nat → Nat) (k : Nat)
    (hk : pos < (g.getD k []).length) :
    getTok (writeCol g pos f) k pos = f k := by
  rw [getTok, writeCol, writeColFrom_getD pos f g 0 k, Nat.zero_add,
    getD_set_self _ _ _ hk]

lemma getTok_writeCol_same (g : Grid) (pos : Nat) (f : Nat → Nat) (k : Nat)
    (h : f k = getTok g k pos) :
    getTok (writeCol g pos f) k pos = getTok g k pos := by
  by_cases hk : pos < (g.getD k []).length
  · rw [getTok_writeCol_self g pos f k hk, h]
  · rw [getTok, writeCol, writeColFrom_getD pos f g 0 k,
      getD_set_of_length_le _ _ _ (by omega)]
    rfl

lemma writeCol_row_length (g : Grid) (pos : Nat) (f : Nat → Nat) (j : Nat) :
    ((writeCol g pos f).getD j []).length = (g.getD j []).length := by
  rw [writeCol, writeColFrom_getD pos f g 0 j, List.length_set]

lemma writeCol_length (g : Grid) (pos : Nat) (f : Nat → Nat) :
    (writeCol g pos f).length = g.length := by
  rw [writeCol]
  generalize 0 = k
  induction g generalizing k with
  | nil => rfl
  | cons row rest ih =>
    show (writeColFrom pos f k (row :: rest)).length = (row :: rest).length
    rw [writeColFrom]
    simp only [List.length_cons]
    rw [ih]

lemma decodeStep_masked (mask : Nat → Nat → Bool) (sampler : Nat → Nat → Nat)
    (g : Grid) (c k q : Nat) (h : mask k q = true) :
    getTok (decodeStep mask sampler g c) k q = getTok g k q := by
  by_cases hq : q = c
  · subst hq
    rw [decodeStep]
    apply getTok_writeCol_same
    rw [if_pos h]
  · rw [decodeStep]
    exact getTok_writeCol_ne g c _ k q hq

lemma decodeFrom_mem_bounds (mask : Nat → Nat → Bool) (sampler : Nat → Nat → Nat)
    (bsz eosId : Nat) :
    ∀ (fuel curPos : Nat) (g : Grid),
      ∀ p ∈ (decodeFrom mask sampler bsz eosId fuel curPos g).2,
        curPos ≤ p ∧ p < curPos + fuel := by
  intro fuel
  induction fuel with
  | zero =>
    intro curPos g p hp
    cases hp
  | succ fuel ih =>
    intro curPos g p hp
    rw [decodeFrom] at hp
    by_cases hstop : bsz = 1 ∧
        (if mask 0 curPos then getTok g 0 curPos else sampler curPos 0) = eosId
    · rw [if_pos hstop] at hp
      rcases List.mem_cons.mp hp with hp | hp
      · omega
      · cases hp
    · rw [if_neg hstop] at hp
      rcases List.mem_cons.mp hp with hp | hp
      · omega
      · have := ih (curPos + 1) _ p hp
        omega

lemma decodeFrom_untouched (mask : Nat → Nat → Bool) (sampler : Nat → Nat → Nat)
    (bsz eosId : Nat) :
    ∀ (fuel curPos : Nat) (g : Grid) (k q : Nat),
      q ∉ (decodeFrom mask sampler bsz eosId fuel curPos g).2 →
      getTok (decodeFrom mask sampler bsz eosId fuel curPos g).1 k q = getTok g k q := by
  intro fuel
  induction fuel with
  | zero =>
    intro curPos g k q _
    rfl
  | succ fuel ih =>
    intro curPos g k q hq
    rw [decodeFrom] at hq ⊢
    by_cases hstop : bsz = 1 ∧
        (if mask 0 curPos then getTok g 0 curPos else sampler curPos 0) = eosId
    · rw [if_pos hstop] at hq ⊢
      have hqc : q ≠ curPos := by
        intro hc
        exact hq (by rw [hc]; exact List.mem_singleton.mpr rfl)
      rw [decodeStep]
      exact getTok_writeCol_ne g curPos _ k q hqc
    · rw [if_neg hstop] at hq ⊢
      have hqc : q ≠ curPos := by
        intro hc
        exact hq (by rw [hc]; exact List.mem_cons_self _ _)
      have hqrest : q ∉ (decodeFrom mask sampler bsz eosId fuel (curPos + 1)
          (decodeStep mask sampler g curPos)).2 := by
        intro hc
        exact hq (List.mem_cons_of_mem _ hc)
      rw [ih (curPos + 1) _ k q hqrest, decodeStep]
      exact getTok_writeCol_ne g curPos _ k q hqc

lemma decodeFrom_masked (mask : Nat → Nat → Bool) (sampler : Nat → Nat → Nat)
    (bsz eosId : Nat) :
    ∀ (fuel curPos : Nat) (g : Grid) (k q : Nat), mask k q = true →
      getTok (decodeFrom mask sampler bsz eosId fuel curPos g).1 k q = getTok g k q := by
  intro fuel
  induction fuel with
  | zero =>
    intro curPos g k q _
    rfl
  | succ fuel ih =>
    intro curPos g k q hm
    rw [decodeFrom]
    by_cases hstop : bsz = 1 ∧
        (if mask 0 curPos then getTok g 0 curPos else sampler curPos 0) = eosId
    · rw [if_pos hstop]
      exact decodeStep_masked mask sampler g curPos k q hm
    · rw [if_neg hstop]
      show getTok (decodeFrom mask sampler bsz eosId fuel (curPos + 1)
          (decodeStep mask sampler g curPos)).1 k q = getTok g k q
      rw [ih (curPos + 1) _ k q hm]
      exact decodeStep_masked mask sampler g curPos k q hm

lemma decodeFrom_trace_noStop (mask : Nat → Nat → Bool) (sampler : Nat → Nat → Nat)
    (bsz eosId : Nat) (hb : bsz ≠ 1) :
    ∀ (fuel curPos : Nat) (g : Grid),
      (decodeFrom mask sampler bsz eosId fuel curPos g).2 = List.range' curPos fuel := by
  intro fuel
  induction fuel with
  | zero =>
    intro curPos g
    rfl
  | succ fuel ih =>
    intro curPos g
    rw [decodeFrom, if_neg (fun hc => hb hc.1), List.range'_succ]
    show curPos :: _ = curPos :: List.range' (curPos + 1) fuel
    rw [ih (curPos + 1) _]

lemma decodeFrom_stop_max (mask : Nat → Nat → Bool) (sampler : Nat → Nat → Nat)
    (eosId : Nat) :
    ∀ (fuel curPos : Nat) (g : Grid),
      curPos + fuel ≤ (g.getD 0 []).length →
      ∀ p ∈ (decodeFrom mask sampler 1 eosId fuel curPos g).2,
        getTok (decodeFrom mask sampler 1 eosId fuel curPos g).1 0 p = eosId →
        ∀ q ∈ (decodeFrom mask sampler 1 eosId fuel curPos g).2, q ≤ p := by
  intro fuel
  induction fuel with
  | zero =>
    intro curPos g _ p hp
    cases hp
  | succ fuel ih =>
    intro curPos g hrow p hp hpe q hq
    rw [decodeFrom] at hp hpe hq
    by_cases hstop : (1 : Nat) = 1 ∧
        (if mask 0 curPos then getTok g 0 curPos else sampler curPos 0) = eosId
    · rw [if_pos hstop] at hp hq
      rcases List.mem_cons.mp hp with hp | hp
      · rcases List.mem_cons.mp hq with hq | hq
        · omega
        · cases hq
      · cases hp
    · rw [if_neg hstop] at hp hpe hq
      have hrow' : (curPos + 1) + fuel
          ≤ ((decodeStep mask sampler g curPos).getD 0 []).length := by
        rw [decodeStep, writeCol_row_length]
        omega
      have hnotin : curPos ∉ (decodeFrom mask sampler 1 eosId fuel (curPos + 1)
          (decodeStep mask sampler g curPos)).2 := by
        intro hc
        have := decodeFrom_mem_bounds mask sampler 1 eosId fuel (curPos + 1) _ curPos hc
        omega
      have hvalc : getTok ((decodeFrom mask sampler 1 eosId fuel (curPos + 1)
          (decodeStep mask sampler g curPos)).1, curPos ::
            (decodeFrom mask sampler 1 eosId fuel (curPos + 1)
              (decodeStep mask sampler g curPos)).2).1 0 curPos
          = (if mask 0 curPos then getTok g 0 curPos else sampler curPos 0) := by
        show getTok (decodeFrom mask sampler 1 eosId fuel (curPos + 1)
          (decodeStep mask sampler g curPos)).1 0 curPos = _
        rw [decodeFrom_untouched mask sampler 1 eosId fuel (curPos + 1) _ 0 curPos hnotin,
          decodeStep, getTok_writeCol_self g curPos _ 0 (by omega)]
      rcases List.mem_cons.mp hp with hp | hp
      · exfalso
        rw [hp] at hpe
        rw [hvalc] at hpe
        exact hstop ⟨rfl, hpe⟩
      · have hIH := ih (curPos + 1) _ hrow' p hp hpe
        rcases List.mem_cons.mp hq with hq | hq
        · have := decodeFrom_mem_bounds mask sampler 1 eosId fuel (curPos + 1) _ p hp
          omega
        · exact hIH q hq

lemma initGrid_isSome (prompts : List (List Nat)) (tl pad : Nat)
    (h : ∀ p ∈ prompts, p.length ≤ tl) :
    (initGrid prompts tl pad).isSome = true := by
  induction prompts with
  | nil => rfl
  | cons p rest ih =>
    have hp : fillRow p tl pad = some (p ++ List.replicate (tl - p.length) pad) := by
      rw [fillRow, if_pos (h p (List.mem_cons_self p rest))]
    have hrest := ih (fun x hx => h x (List.mem_cons_of_mem p hx))
    obtain ⟨g, hg⟩ := Option.isSome_iff_exists.mp hrest
    rw [initGrid, hp, hg]
    rfl

lemma initGrid_none (prompts : List (List Nat)) (tl pad : Nat) (p : List Nat)
    (hp : p ∈ prompts) (hl : tl < p.length) :
    initGrid prompts tl pad = none := by
  induction prompts with
  | nil => cases hp
  | cons q rest ih =>
    rcases List.mem_cons.mp hp with hq | hq
    · have : fillRow q tl pad = none := by
        rw [fillRow, if_neg (by subst hq; omega)]
      rw [initGrid, this]
    · rw [initGrid, ih hq]
      cases fillRow q tl pad <;> rfl

lemma initGrid_cons_inv (p : List Nat) (rest : List (List Nat)) (tl pad : Nat)
    (g : Grid) (h : initGrid (p :: rest) tl pad = some g) :
    p.length ≤ tl ∧
    ∃ g', initGrid rest tl pad = some g' ∧
      g = (p ++ List.replicate (tl - p.length) pad) :: g' := by
  rw [initGrid] at h
  by_cases hp : p.length ≤ tl
  · rw [fillRow, if_pos hp] at h
    cases hrest : initGrid rest tl pad with
    | none => rw [hrest] at h; cases h
    | some g' =>
      rw [hrest] at h
      refine ⟨hp, g', rfl, ?_⟩
      cases h
      rfl
  · rw [fillRow, if_neg hp] at h
    cases h

lemma initGrid_length (prompts : List (List Nat)) (tl pad : Nat) :
    ∀ g, initGrid prompts tl pad = some g → g.length = prompts.length := by
  induction prompts with
  | nil =>
    intro g h
    cases h
    rfl
  | cons p rest ih =>
    intro g h
    obtain ⟨hp, g', hg', rfl⟩ := initGrid_cons_inv p rest tl pad g h
    simp only [List.length_cons]
    rw [ih g' hg']

lemma initGrid_getD (prompts : List (List Nat)) (tl pad : Nat) :
    ∀ g, initGrid prompts tl pad = some g → ∀ j, j < prompts.length →
      (prompts.getD j []).length ≤ tl ∧
      g.getD j [] = prompts.getD j []
        ++ List.replicate (tl - (prompts.getD j []).length) pad := by
  induction prompts with
  | nil =>
    intro g _ j hj
    cases hj
  | cons p rest ih =>
    intro g h j hj
    obtain ⟨hp, g', hg', rfl⟩ := initGrid_cons_inv p rest tl pad g h
    cases j with
    | zero => exact ⟨hp, rfl⟩
    | succ j => exact ih g' hg' j (by simpa using hj)

lemma initGrid_rows (prompts : List (List Nat)) (tl pad : Nat) :
    ∀ g, initGrid prompts tl pad = some g → ∀ row ∈ g, row.length = tl := by
  induction prompts with
  | nil =>
    intro g h row hrow
    cases h
    cases hrow
  | cons p rest ih =>
    intro g h row hrow
    obtain ⟨hp, g', hg', rfl⟩ := initGrid_cons_inv p rest tl pad g h
    rcases List.mem_cons.mp hrow with hrow | hrow
    · rw [hrow, List.length_append, List.length_replicate]
      omega
    · exact ih g' hg' row hrow

lemma initGrid_pad (prompts : List (List Nat)) (tl pad : Nat) (g : Grid)
    (h : initGrid prompts tl pad = some g) (k q : Nat)
    (hk : k < prompts.length) (hq1 : (prompts.getD k []).length ≤ q) (hq2 : q < tl) :
    getTok g k q = pad := by
  obtain ⟨hlen, hrow⟩ := initGrid_getD prompts tl pad g h k hk
  rw [getTok, hrow, List.getD_append_right _ _ _ _ hq1,
    List.getD_eq_getElem?_getD, List.getElem?_replicate, if_pos (by omega)]
  rfl

/-- C7: in the decode loop over an initialized grid, with batch size 1, once
the token written at a processed position `p` of sequence 0 equals the
end-of-sequence id the loop stops immediately: no position after `p` is ever
processed and every later grid position of the (only) sequence still holds
the pad value; with batch size different from 1 the loop never exits early —
the processed positions are exactly `cur, cur+1, ..., cur+fuel-1`
(i.e. every position up to `total_len - 1` when run with full fuel),
whatever tokens the sampler produces. -/
theorem decode_early_stop
    (prompts : List (List Nat)) (tl pad eosId : Nat)
    (mask : Nat → Nat → Bool) (sampler : Nat → Nat → Nat)
    (fuel cur : Nat) (g0 : Grid)
    (h0 : initGrid prompts tl pad = some g0)
    (hg : 0 < prompts.length)
    (hfuel : cur + fuel ≤ tl)
    (hcur : (prompts.getD 0 []).length ≤ cur) :
    (∀ p ∈ (decodeFrom mask sampler 1 eosId fuel cur g0).2,
        getTok (decodeFrom mask sampler 1 eosId fuel cur g0).1 0 p = eosId →
        ∀ q, p < q → q < tl →
          q ∉ (decodeFrom mask sampler 1 eosId fuel cur g0).2 ∧
          getTok (decodeFrom mask sampler 1 eosId fuel cur g0).1 0 q = pad) ∧
    (∀ bsz, bsz ≠ 1 →
      (decodeFrom mask sampler bsz eosId fuel cur g0).2 = List.range' cur fuel) := by
  obtain ⟨hlen0, hrow0⟩ := initGrid_getD prompts tl pad g0 h0 0 hg
  have hrow0len : (g0.getD 0 []).length = tl := by
    rw [hrow0, List.length_append, List.length_replicate]
    omega
  constructor
  · intro p hp hpe q hpq hqtl
    have hmax := decodeFrom_stop_max mask sampler eosId fuel cur g0 (by omega) p hp hpe
    have hqnot : q ∉ (decodeFrom mask sampler 1 eosId fuel cur g0).2 := by
      intro hc
      have := hmax q hc
      omega
    refine ⟨hqnot, ?_⟩
    rw [decodeFrom_untouched mask sampler 1 eosId fuel cur g0 0 q hqnot]
    have hpb := decodeFrom_mem_bounds mask sampler 1 eosId fuel cur g0 p hp
    exact initGrid_pad prompts tl pad g0 h0 0 q hg (by omega) hqtl
  · intro bsz hb
    exact decodeFrom_trace_noStop mask sampler bsz eosId hb fuel cur g0

theorem decode_early_stop_witness :
    ((2 ∉ (decodeFrom (fun _ _ => false) (fun _ _ => 1) 1 1 2 1 [[5, 0, 0]]).2 ∧
      getTok (decodeFrom (fun _ _ => false) (fun _ _ => 1) 1 1 2 1 [[5, 0, 0]]).1 0 2 = 0) ∧
     (decodeFrom (fun _ _ => false) (fun _ _ => 1) 2 1 2 1 [[5, 0, 0]]).2
       = List.range' 1 2) :=
  have h := decode_early_stop [[5]] 3 0 1 (fun _ _ => false) (fun _ _ => 1) 2 1
    [[5, 0, 0]] (by decide) (by decide) (by decide) (by decide)
  ⟨h.1 1 (by decide) (by decide) 2 (by decide) (by decide), h.2 2 (by decide)⟩

/-- C8: for every decode step and every sequence, a position marked true in
the prompt mask (`input_text_mask`) keeps the original input token in the
grid: whatever the sampler returns, the `torch.where` write puts back the
grid's own value there, so after any number of loop iterations the token at
a masked position equals the corresponding original prompt token. -/
theorem decode_prompt_masking
    (prompts : List (List Nat)) (tl pad eosId bsz : Nat)
    (sampler : Nat → Nat → Nat) (fuel cur : Nat) (g0 : Grid)
    (h0 : initGrid prompts tl pad = some g0) :
    ∀ k pos, inputTextMask g0 pad k pos = true →
      getTok (decodeFrom (inputTextMask g0 pad) sampler bsz eosId fuel cur g0).1 k pos
        = (prompts.getD k []).getD pos 0 := by
  intro k pos hm
  rw [decodeFrom_masked (inputTextMask g0 pad) sampler bsz eosId fuel cur g0 k pos hm]
  have hk : k < prompts.length := by
    by_contra hk
    push_neg at hk
    have hglen : g0.length = prompts.length := initGrid_length prompts tl pad g0 h0
    have hnil : g0.getD k [] = [] := List.getD_eq_default _ _ (by omega)
    rw [inputTextMask, hnil] at hm
    simp at hm
  obtain ⟨hlen, hrow⟩ := initGrid_getD prompts tl pad g0 h0 k hk
  rw [inputTextMask, Bool.and_eq_true] at hm
  have hposlen : pos < (g0.getD k []).length := of_decide_eq_true hm.1
  have hne : getTok g0 k pos ≠ pad := by simpa using hm.2
  by_cases hpp : pos < (prompts.getD k []).length
  · rw [getTok, hrow]
    exact List.getD_append _ _ 0 pos hpp
  · exfalso
    apply hne
    have hrl : (g0.getD k []).length = tl := by
      rw [hrow, List.length_append, List.length_replicate]
      omega
    exact initGrid_pad prompts tl pad g0 h0 k pos hk (by omega) (by omega)

theorem decode_prompt_masking_witness :
    inputTextMask [[5, 9, 0]] 0 0 1 = true ∧
    getTok (decodeFrom (inputTextMask [[5, 9, 0]] 0) (fun _ _ => 7) 1 999 1 2
      [[5, 9, 0]]).1 0 1 = 9 :=
  ⟨by decide,
    decode_prompt_masking [[5, 9]] 3 0 999 1 (fun _ _ => 7) 1 2 [[5, 9, 0]]
      (by decide) 0 1 (by decide)⟩

lemma zipWith_getD (f : List Nat → List Nat → List Nat) :
    ∀ (l1 l2 : List (List Nat)) (i : Nat), i < (List.zipWith f l1 l2).length →
      (List.zipWith f l1 l2).getD i [] = f (l1.getD i []) (l2.getD i []) := by
  intro l1
  induction l1 with
  | nil =>
    intro l2 i h
    simp at h
  | cons a t1 ih =>
    intro l2 i h
    cases l2 with
    | nil => simp at h
    | cons b t2 =>
      cases i with
      | zero => rfl
      | succ i =>
        rw [List.zipWith_cons_cons]
        show (List.zipWith f t1 t2).getD i [] = _
        exact ih t2 i (by rw [List.zipWith_cons_cons] at h; simpa using h)

lemma dropWhile_eos (eosId : Nat) :
    ∀ l : List Nat, eosId ∈ l →
      ∃ t, l.dropWhile (fun x => x != eosId) = eosId :: t := by
  intro l
  induction l with
  | nil =>
    intro h
    cases h
  | cons a t ih =>
    intro h
    by_cases ha : a = eosId
    · refine ⟨t, ?_⟩
      rw [List.dropWhile_cons, if_neg (by simp [ha]), ha]
    · have ht : eosId ∈ t := by
        rcases List.mem_cons.mp h with h | h
        · exact absurd h.symm ha
        · exact h
      obtain ⟨t', ht'⟩ := ih ht
      exact ⟨t', by rw [List.dropWhile_cons, if_pos (by simp [ha])]; exact ht'⟩

/-- C9: the grid allocated by `generate` has exactly
`min(max_seq_len, max_gen_len + max_prompt_size)` columns in every row, and
for each sequence the returned token list is a prefix of the slice of at
most `max_gen_len` grid tokens starting right after that sequence's own
prompt length, contains no end-of-sequence token, and — when the slice does
contain one — is exactly the part of the slice before the first
end-of-sequence token. -/
theorem generate_shape_and_finalize
    (prompts : List (List Nat)) (maxSeq maxGen pad eosId : Nat) (g0 : Grid)
    (h0 : initGrid prompts (totalLen maxSeq maxGen (maxPromptSize prompts)) pad
      = some g0) :
    (∀ row ∈ g0, row.length = min maxSeq (maxGen + maxPromptSize prompts)) ∧
    (∀ (g : Grid) (i : Nat), i < (finalize g prompts maxGen eosId).length →
      ((finalize g prompts maxGen eosId).getD i []).length ≤ maxGen ∧
      (finalize g prompts maxGen eosId).getD i []
        <+: ((g.getD i []).drop (prompts.getD i []).length).take maxGen ∧
      (∀ x ∈ (finalize g prompts maxGen eosId).getD i [], x ≠ eosId) ∧
      (eosId ∈ ((g.getD i []).drop (prompts.getD i []).length).take maxGen →
        (finalize g prompts maxGen eosId).getD i [] ++ [eosId]
          <+: ((g.getD i []).drop (prompts.getD i []).length).take maxGen)) := by
  constructor
  · exact initGrid_rows prompts _ pad g0 h0
  · intro g i hi
    have hfin : (finalize g prompts maxGen eosId).getD i []
        = finalizeRow (g.getD i []) (prompts.getD i []) maxGen eosId :=
      zipWith_getD _ g prompts i hi
    rw [hfin]
    show (((((g.getD i []).drop (prompts.getD i []).length).take maxGen).takeWhile
        (fun x => x != eosId)).length ≤ maxGen) ∧ _
    refine ⟨?_, ?_, ?_, ?_⟩
    · calc ((((g.getD i []).drop (prompts.getD i []).length).take maxGen).takeWhile
            (fun x => x != eosId)).length
          ≤ (((g.getD i []).drop (prompts.getD i []).length).take maxGen).length :=
            (List.takeWhile_prefix _).length_le
        _ ≤ maxGen := by rw [List.length_take]; omega
    · exact List.takeWhile_prefix _
    · intro x hx
      have := List.mem_takeWhile_imp hx
      simpa using this
    · intro he
      obtain ⟨t', ht'⟩ := dropWhile_eos eosId _ he
      have hsplit := List.takeWhile_append_dropWhile (fun x => x != eosId)
        (((g.getD i []).drop (prompts.getD i []).length).take maxGen)
      rw [ht'] at hsplit
      exact ⟨t', by rw [List.append_assoc]; simpa using hsplit⟩

theorem generate_shape_and_finalize_witness :
    (∀ row ∈ ([[5, 0, 0]] : Grid), row.length = min 10 (2 + maxPromptSize [[5]])) ∧
    (((finalize [[5, 7, 1]] [[5]] 2 1).getD 0 []).length ≤ 2 ∧
      (finalize [[5, 7, 1]] [[5]] 2 1).getD 0 []
        <+: ((([[5, 7, 1]] : Grid).getD 0 []).drop (([[5]] : List (List Nat)).getD 0 []).length).take 2 ∧
      (∀ x ∈ (finalize [[5, 7, 1]] [[5]] 2 1).getD 0 [], x ≠ 1) ∧
      ((1 : Nat) ∈ ((([[5, 7, 1]] : Grid).getD 0 []).drop (([[5]] : List (List Nat)).getD 0 []).length).take 2 →
        (finalize [[5, 7, 1]] [[5]] 2 1).getD 0 [] ++ [1]
          <+: ((([[5, 7, 1]] : Grid).getD 0 []).drop (([[5]] : List (List Nat)).getD 0 []).length).take 2)) :=
  have h := generate_shape_and_finalize [[5]] 10 2 0 1 [[5, 0, 0]] (by decide)
  ⟨h.1, h.2 [[5, 7, 1]] 0 (by decide)⟩

/-- C10: `generate` performs no truncation of over-long prompts — the grid
fill `tokens[k, :len(t)] = torch.tensor(t)` succeeds iff every prompt fits
in `total_len = min(max_seq_len, max_gen_len + max_prompt_size)` columns:
under that (unstated) precondition the fill succeeds for every sequence,
while any prompt longer than `total_len` (e.g. when the longest prompt
exceeds `max_seq_len`) makes the initial grid fill fail before any
decoding. -/
theorem fill_requires_fit (prompts : List (List Nat)) (maxSeq maxGen pad : Nat) :
    ((∀ p ∈ prompts, p.length ≤ totalLen maxSeq maxGen (maxPromptSize prompts)) →
      (initGrid prompts (totalLen maxSeq maxGen (maxPromptSize prompts)) pad).isSome
        = true) ∧
    (∀ p ∈ prompts, totalLen maxSeq maxGen (maxPromptSize prompts) < p.length →
      initGrid prompts (totalLen maxSeq maxGen (maxPromptSize prompts)) pad = none) :=
  ⟨fun h => initGrid_isSome prompts _ pad h,
    fun p hp hl => initGrid_none prompts _ pad p hp hl⟩

theorem fill_requires_fit_witness :
    (initGrid [[1, 2]] (totalLen 5 1 (maxPromptSize [[1, 2]])) 0).isSome = true ∧
    initGrid [[1, 2, 3]] (totalLen 2 1 (maxPromptSize [[1, 2, 3]])) 0 = none :=
  ⟨(fill_requires_fit [[1, 2]] 5 1 0).1 (by decide),
    (fill_requires_fit [[1, 2, 3]] 2 1 0).2 [1, 2, 3] (by decide) (by decide)⟩
